import Mathlib

/-!
Verification of the WXF serialization context, varint encoder, and kernel
pool of the `wolframclient` package, shallowly embedded in Lean 4.

The embedding follows `src/wolframclient/serializers/wxfencoder/serializer.py`
and `src/wolframclient/evaluation/kernel/kernelpool.py` line by line.
Python integers are modelled by `Int`/`Nat`, Python lists by `List`,
and raised exceptions by an `Except` monad over an error kind.
-/

namespace WXF

/-- Kinds of Python exceptions raised by the code under study.
`structural` is the `IndexError` raised by `SerializationContext._check_insert`
("Out of bound, number of parts is greater than declared length ..."), which
the spec calls a `StructuralError`.  `indexError` is an `IndexError` coming
from plain list indexing or from `_set_at_index_or_append` (in particular the
out-of-range write into the fixed 9-byte varint buffer).  `typeError` is the
`TypeError` raised by `varint_bytes` on negative input (the spec's
`EncodingError`).  `nameError` is a Python `NameError` (an undefined
variable evaluated at runtime).  `serialization` is `WXFSerializerException`. -/
inductive PyErr where
  | structural
  | indexError
  | typeError
  | nameError
  | serialization
  deriving DecidableEq, Repr

/-- Python list index resolution: a non-negative index must be `< n`, a
negative index `i` denotes `n + i` and must satisfy `-n ≤ i`.  Returns the
actual (non-negative) position, or `none` for an `IndexError`. -/
def pyIndex (n : Nat) (i : Int) : Option Nat :=
  if 0 ≤ i then (if i < (n : Int) then some i.toNat else none)
  else (if -(n : Int) ≤ i then some ((n : Int) + i).toNat else none)

/-- Python `l[i]` (read). -/
def pyGet {α : Type} (l : List α) (i : Int) : Option α :=
  match pyIndex l.length i with
  | some j => l.get? j
  | none => none

/-- Python `l[i] = v` (write). -/
def pySet {α : Type} (l : List α) (i : Int) (v : α) : Option (List α) :=
  match pyIndex l.length i with
  | some j => some (l.set j v)
  | none => none

/-- The state of `SerializationContext`: `_depth`, `_expected_length_stack`,
`_current_index_stack` and `_in_assoc_stack`.  The stacks are Python lists
that only ever grow; `depth` tracks the active region, and may reach `-1`
once the root frame has been consumed. -/
structure SCtx where
  depth : Int
  exp : List Nat
  idx : List Nat
  assoc : List Bool
  deriving DecidableEq, Repr

/-- `SerializationContext.__init__`: the root frame has length 1, index 0,
and is not an association. -/
def freshCtx : SCtx := ⟨0, [1], [0], [false]⟩

/-- `SerializationContext._check_insert`.  The guard `self._depth >= 0`
short-circuits, so nothing is checked once the root has been consumed. -/
def check_insert (c : SCtx) : Except PyErr Unit :=
  if 0 ≤ c.depth then
    match pyGet c.idx c.depth, pyGet c.exp c.depth with
    | some i, some e => if e ≤ i then .error .structural else .ok ()
    | _, _ => .error .indexError
  else .ok ()

/-- One test of the condition of the `while` loop in
`_step_out_finalized_expr`, with explicit fuel; the loop decrements `_depth`
once per iteration, so `(depth + 1).toNat` steps of fuel are exact. -/
def step_out_fuel : Nat → SCtx → Except PyErr SCtx
  | 0, c => .ok c
  | fuel + 1, c =>
    if 0 ≤ c.depth then
      match pyGet c.idx c.depth, pyGet c.exp c.depth with
      | some i, some e =>
        if i = e then step_out_fuel fuel { c with depth := c.depth - 1 } else .ok c
      | _, _ => .error .indexError
    else .ok c

/-- `SerializationContext._step_out_finalized_expr`: pop every frame whose
current index has reached its expected length, cascading. -/
def step_out_finalized_expr (c : SCtx) : Except PyErr SCtx :=
  step_out_fuel (c.depth + 1).toNat c

/-- `SerializationContext.add_part`: check, increment
`_current_index_stack[_depth]`, then pop finished frames.  Note that when
`depth = -1` the check is skipped and the increment hits the *last* stack
slot through Python negative indexing. -/
def add_part (c : SCtx) : Except PyErr SCtx := do
  let _ ← check_insert c
  match pyGet c.idx c.depth with
  | some i =>
    match pySet c.idx c.depth (i + 1) with
    | some idx' => step_out_finalized_expr { c with idx := idx' }
    | none => .error .indexError
  | none => .error .indexError

/-- `SerializationContext._set_at_index_or_append`. -/
def set_at_index_or_append {α : Type} (ar : List α) (index : Int) (v : α) :
    Except PyErr (List α) :=
  if (ar.length : Int) = index then .ok (ar ++ [v])
  else if index < (ar.length : Int) then
    match pySet ar index v with
    | some ar' => .ok ar'
    | none => .error .indexError
  else .error .indexError

/-- `SerializationContext.step_in_new_expr`: count the new node as one part
of the current frame, go one level deeper, install the new frame's slots
(the source then redundantly re-writes the expected-length and index slots),
and pop any finished frames. -/
def step_in_new_expr (c : SCtx) (length : Nat) (is_assoc : Bool) :
    Except PyErr SCtx := do
  let c₁ ← add_part c
  let d := c₁.depth + 1
  let exp₁ ← set_at_index_or_append c₁.exp d length
  let idx₁ ← set_at_index_or_append c₁.idx d 0
  let assoc₁ ← set_at_index_or_append c₁.assoc d is_assoc
  -- the redundant `if len(...) <= self._depth` blocks of the source
  let exp₂ ←
    if (exp₁.length : Int) ≤ d then .ok (exp₁ ++ [length])
    else
      match pySet exp₁ d length with
      | some l => .ok l
      | none => .error .indexError
  let idx₂ ←
    if (idx₁.length : Int) ≤ d then .ok (idx₁ ++ [0])
    else
      match pySet idx₁ d 0 with
      | some l => .ok l
      | none => .error .indexError
  step_out_finalized_expr { depth := d, exp := exp₂, idx := idx₂, assoc := assoc₁ }

/-- `SerializationContext.is_valid_final_state`. -/
def SCtx.is_valid_final_state (c : SCtx) : Bool := c.depth == -1

/-- `SerializationContext.is_rule_valid`: reads
`self._in_assoc_stack[self._depth]`; at `depth = -1` this is the *last*
slot of the stack through Python negative indexing. -/
def is_rule_valid (c : SCtx) : Except PyErr Bool :=
  match pyGet c.assoc c.depth with
  | some b => .ok b
  | none => .error .indexError

/-- The two public mutating operations of the context, as issued by an
encoder: `add_part()` for a leaf token, `step_in_new_expr(length, is_assoc)`
for a non-leaf token. -/
inductive SAction where
  | part
  | stepIn (length : Nat) (assoc : Bool)
  deriving DecidableEq, Repr

def runAction (c : SCtx) : SAction → Except PyErr SCtx
  | .part => add_part c
  | .stepIn n a => step_in_new_expr c n a

/-- Drive a context through a sequence of operations. -/
def runActions : List SAction → SCtx → Except PyErr SCtx
  | [], c => .ok c
  | a :: rest, c => do runActions rest (← runAction c a)

/-- Python `buf[i] = v` on a `bytearray`: out-of-range raises `IndexError`. -/
def bytearray_set (buf : List Nat) (i : Nat) (v : Nat) : Except PyErr (List Nat) :=
  if i < buf.length then .ok (buf.set i v) else .error .indexError

/-- The `while True` loop of `varint_bytes`: emit the low 7 bits of
`int_value` into `buf[count]`, with the continuation bit `0x80` set whenever
the remaining value `int_value >> 7` is non-zero. -/
def varint_loop (int_value : Nat) (buf : List Nat) (count : Nat) :
    Except PyErr (List Nat × Nat) :=
  let next := int_value &&& 0x7f
  if h : int_value >>> 7 ≠ 0 then
    match bytearray_set buf count (next ||| 0x80) with
    | .ok buf' => varint_loop (int_value >>> 7) buf' (count + 1)
    | .error e => .error e
  else
    match bytearray_set buf count next with
    | .ok buf' => .ok (buf', count + 1)
    | .error e => .error e
  termination_by int_value
  decreasing_by
    rw [Nat.shiftRight_eq_div_pow] at h ⊢
    norm_num at h ⊢
    omega

/-- `varint_bytes`: allocate `bytearray(9)`, reject negative values with a
`TypeError`, run the emission loop, and return the written prefix. -/
def varint_bytes (int_value : Int) : Except PyErr (List Nat) :=
  let buf := List.replicate 9 0
  if int_value < 0 then .error .typeError
  else
    match varint_loop int_value.toNat buf 0 with
    | .ok (buf', count) => .ok (buf'.take count)
    | .error e => .error e

/-- Modelled from the spec (§4.1, §8): the reference varint encoding — the
value's 7-bit groups least-significant first, every byte except the last
with its high bit (128) set, the last with it clear. -/
def refVarint (v : Nat) : List Nat :=
  if v < 128 then [v] else (v % 128 + 128) :: refVarint (v / 128)
  termination_by v
  decreasing_by exact Nat.div_lt_self (by omega) (by norm_num)

/-- The decoder of claim C10: little-endian base-128 digits, low 7 bits of
each byte, stopping at the first byte whose high bit is clear; returns the
value and the unconsumed remainder of the stream. -/
def decodeVarint : List Nat → Option (Nat × List Nat)
  | [] => none
  | b :: rest =>
    if b < 128 then some (b, rest)
    else
      match decodeVarint rest with
      | some (v, r) => some (b % 128 + 128 * v, r)
      | none => none

/-- Write a list of bytes into a buffer starting at position `i`. -/
def writeAll : List Nat → Nat → List Nat → List Nat
  | buf, _, [] => buf
  | buf, i, b :: bs => writeAll (buf.set i b) (i + 1) bs

/-! ### An abstract view of the context

The three Python stacks only ever grow; the slots beyond `_depth` are dead
until overwritten by a later push.  The abstract state is the list of *live*
frames, top first (the root frame last); the empty list is the state after
the root frame has been consumed (`_depth = -1`). -/

/-- One live level of the expression tree being serialized: its declared
length, the number of parts already inserted, and its association flag. -/
structure Frame where
  expected : Nat
  inserted : Nat
  isAssoc : Bool
  deriving DecidableEq, Repr

/-- Abstract `_step_out_finalized_expr`: pop the finished frames. -/
def popFull : List Frame → List Frame
  | [] => []
  | f :: s => if f.inserted = f.expected then popFull s else f :: s

/-- Abstract `add_part`.  On the empty stack (root consumed) the concrete
code silently increments a dead slot, so the abstract state is unchanged. -/
def aAddPart : List Frame → Except PyErr (List Frame)
  | [] => .ok []
  | f :: s =>
    if f.expected ≤ f.inserted then .error .structural
    else .ok (popFull ({ f with inserted := f.inserted + 1 } :: s))

/-- Abstract `step_in_new_expr`. -/
def aStepIn (n : Nat) (a : Bool) (s : List Frame) : Except PyErr (List Frame) := do
  let s₁ ← aAddPart s
  .ok (popFull (⟨n, 0, a⟩ :: s₁))

def aRunAction (s : List Frame) : SAction → Except PyErr (List Frame)
  | .part => aAddPart s
  | .stepIn n a => aStepIn n a s

def aRun : List SAction → List Frame → Except PyErr (List Frame)
  | [], s => .ok s
  | a :: rest, s => do aRun rest (← aRunAction s a)

/-- The state `add_part` leaves when it succeeds without the structural
check firing. -/
def aAddPartPure : List Frame → List Frame
  | [] => []
  | f :: s => popFull ({ f with inserted := f.inserted + 1 } :: s)

/-- Every live frame has inserted at most its declared length. -/
def Inv (s : List Frame) : Prop := ∀ f ∈ s, f.inserted ≤ f.expected

/-- The top frame, when there is one, still has room. -/
def headNF : List Frame → Prop
  | [] => True
  | f :: _ => f.inserted < f.expected

/-- Total remaining room on the stack. -/
def aRoom (s : List Frame) : Nat := (s.map (fun f => f.expected - f.inserted)).sum

/-! ### Simulation between the concrete context and the abstract stack -/

/-- `c` realizes the abstract stack `s` (top first): the depth points at the
top of the live region, the stacks are never empty, and the live prefix of
each stack is the reverse of the corresponding abstract column. -/
def Rel (c : SCtx) (s : List Frame) : Prop :=
  c.depth = (s.length : Int) - 1 ∧
  1 ≤ c.exp.length ∧ 1 ≤ c.idx.length ∧ 1 ≤ c.assoc.length ∧
  c.exp.take s.length = (s.map Frame.expected).reverse ∧
  c.idx.take s.length = (s.map Frame.inserted).reverse ∧
  c.assoc.take s.length = (s.map Frame.isAssoc).reverse

/-! ### Expression trees and the encoder's call sequence -/

/-- The claim's well-formed expression trees: a leaf token, or a non-leaf
token that declares a length and carries its children (and an association
flag).  `declared` is kept separate from the child list so that a tree with
a missing final child can be described. -/
inductive ExprTree where
  | leaf : ExprTree
  | node : Bool → Nat → List ExprTree → ExprTree

mutual

/-- The context operations a correct recursive encoder issues for a tree:
one `step_in_new_expr` with the declared child count per non-leaf, one
`add_part` per leaf, in depth-first pre-order. -/
def treeActions : ExprTree → List SAction
  | .leaf => [.part]
  | .node a n cs => .stepIn n a :: treeActionsL cs

def treeActionsL : List ExprTree → List SAction
  | [] => []
  | c :: cs => treeActions c ++ treeActionsL cs

end

mutual

/-- Well-formedness: every node declares exactly its number of children. -/
def wfTree : ExprTree → Bool
  | .leaf => true
  | .node _ n cs => (n == cs.length) && wfTreeL cs

def wfTreeL : List ExprTree → Bool
  | [] => true
  | c :: cs => wfTree c && wfTreeL cs

end

/-- The missing-final-child transformation of claim C2: `truncAt t p` drops
the last child of the node reached from `t` along the child-index path `p`,
keeping that node's declared length (and everything else) unchanged. -/
def truncAt : ExprTree → List Nat → Option ExprTree
  | .leaf, _ => none
  | .node a n cs, [] =>
    if cs.length = 0 then none else some (.node a n cs.dropLast)
  | .node a n cs, k :: p =>
    match cs.get? k with
    | none => none
    | some c =>
      match truncAt c p with
      | none => none
      | some c' => some (.node a n (cs.set k c'))

/-! ### The serializer: `WXFExprSerializer.serialize` -/

/-- The context actually held by a serializer: a `SerializationContext`
when `enforce=True`, the no-op `NoEnforcingContext` otherwise. -/
inductive AnyCtx where
  | enforcing (c : SCtx)
  | noEnforcing

/-- `is_valid_final_state` of the active context; the permissive variant
always answers true. -/
def AnyCtx.is_valid_final_state : AnyCtx → Bool
  | .enforcing c => c.is_valid_final_state
  | .noEnforcing => true

/-- The context a freshly constructed serializer holds (`__init__`). -/
def initContext (enforce : Bool) : AnyCtx :=
  if enforce then .enforcing freshCtx else .noEnforcing

/-- A wire token, abstractly: its `_serialize_to_wxf(writer, context)`
method consumes the context and either emits bytes with an updated context
or raises.  The token classes themselves live outside the studied sources. -/
def Token : Type := AnyCtx → Except PyErr (List Nat × AnyCtx)

/-- The `for wxfexpr in self.provide_wxfexpr(pyExpr)` loop body of
`serialize`: run each token against the byte destination and the context. -/
def runTokens : List Token → AnyCtx → Except PyErr (List Nat × AnyCtx)
  | [], ctx => .ok ([], ctx)
  | tok :: rest, ctx => do
    let r ← tok ctx
    let r' ← runTokens rest r.2
    .ok (r.1 ++ r'.1, r'.2)

def WXF_VERSION : List Nat := [56]

def WXF_HEADER_SEPARATOR : List Nat := [58]

def WXF_HEADER_COMPRESS : List Nat := [67]

/-- `WXFExprSerializer.serialize`: write the never-compressed header
(`'8'`, then `'C'` exactly when compression is requested, then `':'`),
route the token bytes through the compressing writer when compression is
on (`zipWriter` stands for the `ZipCompressedWriter` transform, which is
outside the studied sources), and, after the token sequence is exhausted,
raise `WXFSerializerException('Inconsistent state: truncated expr.')`
when the active context is not in its valid final state.  The result is
the bytes written to the stream together with the exception raised, if
any (a token failure aborts the body mid-write). -/
def serialize (compress enforce : Bool) (zipWriter : List Nat → List Nat)
    (toks : List Token) : List Nat × Option PyErr :=
  let header := WXF_VERSION ++ (if compress then WXF_HEADER_COMPRESS else [])
    ++ WXF_HEADER_SEPARATOR
  match runTokens toks (initContext enforce) with
  | .error e => (header, some e)
  | .ok (body, ctx) =>
    let out := header ++ (if compress then zipWriter body else body)
    if ctx.is_valid_final_state then (out, none) else (out, some .serialization)

/-! ### The kernel pool: `WolframKernelPool` -/

/-- The resources `WolframKernelPool.__init__` creates when it succeeds:
the bounded queue (maxsize `load_factor * poolsize`), the set of
`poolsize` sessions, and the counters. -/
structure WolframKernelPool where
  queueMaxsize : Int
  kernels : Nat
  last : Int
  eval_count : Nat
  requestedsize : Int
  deriving DecidableEq, Repr

/-- `WolframKernelPool.__init__`.  The guard is `if poolsize <= 0`, but the
raise statement is `raise ValueError('Invalid pool size value %i. ...' % i)`
where the name `i` is undefined in that scope, so evaluating the message
raises `NameError` before the `ValueError` is ever constructed; either way
the constructor fails before the queue or any session exists. -/
def kernelpool_init (kernelpath : String) (poolsize load_factor : Int) :
    Except PyErr WolframKernelPool :=
  if poolsize ≤ 0 then .error .nameError
  else .ok { queueMaxsize := load_factor * poolsize, kernels := poolsize.toNat,
             last := 0, eval_count := 0, requestedsize := poolsize }

/-- Python exception kinds relevant to `_kernel_loop`.
`isinstance(e, Exception)` is false for `KeyboardInterrupt` and for
`asyncio.CancelledError` (a `BaseException` since Python 3.8); it is true
for `RuntimeError` and for ordinary domain errors (`exn`). -/
inductive PyExn where
  | keyboardInterrupt
  | cancelledError
  | runtimeError (msg : Nat)
  | exn (msg : Nat)
  deriving DecidableEq, Repr

def PyExn.isException : PyExn → Bool
  | .keyboardInterrupt => false
  | .cancelledError => false
  | .runtimeError _ => true
  | .exn _ => true

/-- One queued evaluation task `(future, func, args, kwargs)`: the id of
its fresh future and the outcome of `await asyncio.shield(func(kernel,
*args, **kwargs))` — a result, or the exception that call raises. -/
structure KTask where
  futureId : Nat
  outcome : Except PyExn Nat

/-- A queue entry: an ordinary task, or the `None` stop sentinel. -/
inductive QEntry where
  | sentinel
  | task (t : KTask)

/-- The observable state of one `_kernel_loop`: the futures it has
resolved (in order), and how many times it called `queue.task_done()`. -/
structure LoopState where
  futures : List (Nat × Except PyExn Nat)
  taskDoneCount : Nat

inductive LoopExit where
  | waiting
  | stopped
  | raised (e : PyExn)

/-- `WolframKernelPool._kernel_loop`, driven by the successive values that
`await self._queue.get()` returns.  An exhausted entry list models the
loop blocked waiting for the next task.

Per iteration: a `None` task breaks out of the loop — in its `finally`
block the guard `if task:` is false for `None`, so `task_done()` is NOT
called for the sentinel.  For an ordinary task, a successful outcome is
stored in the future; an outcome raising an `Exception` subclass is caught
by the inner `except Exception` and stored in the future, and the loop
continues; `KeyboardInterrupt`/`CancelledError` escape to the outer
handlers, which log and re-raise, ending the loop — in every ordinary-task
case the `finally` block calls `task_done()`. -/
def kernel_loop : List QEntry → LoopState → LoopState × LoopExit
  | [], st => (st, .waiting)
  | .sentinel :: _, st => (st, .stopped)
  | .task t :: rest, st =>
    match t.outcome with
    | .ok v =>
      kernel_loop rest { futures := st.futures ++ [(t.futureId, .ok v)],
                         taskDoneCount := st.taskDoneCount + 1 }
    | .error e =>
      if e.isException then
        kernel_loop rest { futures := st.futures ++ [(t.futureId, .error e)],
                           taskDoneCount := st.taskDoneCount + 1 }
      else
        ({ st with taskDoneCount := st.taskDoneCount + 1 }, .raised e)

/-- The ordinary (non-sentinel) tasks the loop dequeues before it exits or
blocks again. -/
def dequeuedOrdinary : List QEntry → Nat
  | [] => 0
  | .sentinel :: _ => 0
  | .task t :: rest =>
    match t.outcome with
    | .ok _ => 1 + dequeuedOrdinary rest
    | .error e => if e.isException then 1 + dequeuedOrdinary rest else 1

/-- The caller side of `evaluate`: `return await future` yields the stored
result, or re-raises the stored exception, for the caller's fresh future
id. -/
def await_future : List (Nat × Except PyExn Nat) → Nat → Option (Except PyExn Nat)
  | [], _ => none
  | (k, v) :: rest, fid => if k = fid then some v else await_future rest fid

/-- A concrete token for the C4 witness: emits the byte 65 and records one
part on the context. -/
def tokA : Token := fun ctx =>
  match ctx with
  | .enforcing c => (add_part c).map (fun c' => ([65], .enforcing c'))
  | .noEnforcing => .ok ([65], .noEnforcing)

theorem and_127_eq_mod (v : Nat) : v &&& 0x7f = v % 128 := by
  have h : (0x7f : Nat) = 2 ^ 7 - 1 := by norm_num
  rw [h, Nat.and_pow_two_sub_one_eq_mod]

theorem shiftRight_7_eq_div (v : Nat) : v >>> 7 = v / 128 := by
  rw [Nat.shiftRight_eq_div_pow]

theorem or_128_eq_add {m : Nat} (h : m < 128) : m ||| 0x80 = m + 128 := by
  have h1 := Nat.mul_add_lt_is_or (i := 7) (b := m) (by omega) 1
  norm_num at h1
  rw [Nat.or_comm]
  omega

theorem refVarint_small {v : Nat} (h : v < 128) : refVarint v = [v] := by
  rw [refVarint]
  simp [h]

theorem refVarint_large {v : Nat} (h : 128 ≤ v) :
    refVarint v = (v % 128 + 128) :: refVarint (v / 128) := by
  rw [refVarint]
  simp [Nat.not_lt.mpr h]

theorem refVarint_length_pos (v : Nat) : 0 < (refVarint v).length := by
  by_cases h : v < 128
  · simp [refVarint_small h]
  · simp [refVarint_large (Nat.not_lt.mp h)]

/-- `refVarint` needs at most `k` groups below `128 ^ k`. -/
theorem refVarint_length_le : ∀ k v : Nat, v < 128 ^ (k + 1) →
    (refVarint v).length ≤ k + 1 := by
  intro k
  induction k with
  | zero =>
    intro v hv
    rw [pow_one] at hv
    simp [refVarint_small hv]
  | succ k ih =>
    intro v hv
    by_cases h : v < 128
    · simp [refVarint_small h]
    · rw [refVarint_large (Nat.not_lt.mp h)]
      have hd : v / 128 < 128 ^ (k + 1) := by
        rw [Nat.div_lt_iff_lt_mul (by norm_num)]
        calc v < 128 ^ (k + 1 + 1) := hv
        _ = 128 ^ (k + 1) * 128 := by ring
      simpa using ih (v / 128) hd

/-- `refVarint` needs more than `k` groups from `128 ^ k` upward. -/
theorem refVarint_length_gt : ∀ k v : Nat, 128 ^ k ≤ v →
    k < (refVarint v).length := by
  intro k
  induction k with
  | zero => intro v _; exact refVarint_length_pos v
  | succ k ih =>
    intro v hv
    have h128 : 128 ≤ v :=
      le_trans (by calc (128 : Nat) = 128 ^ 1 := (pow_one 128).symm
        _ ≤ 128 ^ (k + 1) := Nat.pow_le_pow_right (by norm_num) (by omega)) hv
    rw [refVarint_large h128]
    have hd : 128 ^ k ≤ v / 128 := by
      rw [Nat.le_div_iff_mul_le (by norm_num)]
      calc 128 ^ k * 128 = 128 ^ (k + 1) := by ring
      _ ≤ v := hv
    simpa using Nat.succ_lt_succ (ih (v / 128) hd)

theorem writeAll_length : ∀ (bs buf : List Nat) (i : Nat),
    (writeAll buf i bs).length = buf.length := by
  intro bs
  induction bs with
  | nil => intro buf i; rfl
  | cons b bs ih =>
    intro buf i
    rw [writeAll, ih]
    exact List.length_set buf i b

theorem set_take_succ {α : Type} : ∀ (l : List α) (i : Nat) (v : α), i < l.length →
    (l.set i v).take (i + 1) = l.take i ++ [v] := by
  intro l
  induction l with
  | nil => intro i v h; simp at h
  | cons a l ih =>
    intro i v h
    cases i with
    | zero => simp
    | succ i =>
      simp only [List.set, List.take, List.cons_append]
      rw [ih i v (by simpa using h)]

theorem writeAll_take : ∀ (bs buf : List Nat) (i : Nat), i + bs.length ≤ buf.length →
    (writeAll buf i bs).take (i + bs.length) = buf.take i ++ bs := by
  intro bs
  induction bs with
  | nil => intro buf i h; simp [writeAll]
  | cons b bs ih =>
    intro buf i h
    have hi : i < buf.length := by simp at h; omega
    have hlen : i + 1 + bs.length ≤ (buf.set i b).length := by
      rw [List.length_set]; simp at h ⊢; omega
    have := ih (buf.set i b) (i + 1) hlen
    rw [set_take_succ buf i b hi] at this
    calc (writeAll (buf.set i b) (i + 1) bs).take (i + (b :: bs).length)
        = (writeAll (buf.set i b) (i + 1) bs).take (i + 1 + bs.length) := by
          congr 1; simp; omega
    _ = buf.take i ++ [b] ++ bs := this
    _ = buf.take i ++ b :: bs := by simp

/-- The emission loop writes exactly the reference groups when they fit. -/
theorem varint_loop_ok : ∀ (v : Nat) (buf : List Nat) (count : Nat),
    count + (refVarint v).length ≤ buf.length →
    varint_loop v buf count
      = .ok (writeAll buf count (refVarint v), count + (refVarint v).length) := by
  intro v
  induction v using Nat.strong_induction_on with
  | _ v ih =>
    intro buf count hfit
    by_cases h : v < 128
    · have hstop : v >>> 7 = 0 := by
        rw [shiftRight_7_eq_div]; omega
      have hcount : count < buf.length := by
        have := refVarint_length_pos v; omega
      rw [varint_loop]
      simp only [hstop, ne_eq, not_true_eq_false, dite_false, reduceDIte]
      rw [bytearray_set, if_pos hcount]
      rw [refVarint_small h] at hfit ⊢
      simp [writeAll, and_127_eq_mod, Nat.mod_eq_of_lt h]
    · have h' : 128 ≤ v := Nat.not_lt.mp h
      have hgo : v >>> 7 ≠ 0 := by
        rw [shiftRight_7_eq_div]
        have : 1 ≤ v / 128 := (Nat.one_le_div_iff (by norm_num)).mpr h'
        omega
      have hcount : count < buf.length := by
        have := refVarint_length_pos v; omega
      rw [varint_loop]
      simp only [dif_pos hgo]
      rw [bytearray_set, if_pos hcount]
      have hrec := ih (v >>> 7) (by
        rw [shiftRight_7_eq_div]
        exact Nat.div_lt_self (by omega) (by norm_num))
        (buf.set count (v &&& 0x7f ||| 0x80)) (count + 1) (by
          rw [List.length_set, shiftRight_7_eq_div]
          rw [refVarint_large h'] at hfit
          simp only [List.length_cons] at hfit
          omega)
      simp only [hrec]
      rw [refVarint_large h', shiftRight_7_eq_div]
      have hbyte : v &&& 0x7f ||| 0x80 = v % 128 + 128 := by
        rw [and_127_eq_mod]
        exact or_128_eq_add (Nat.mod_lt v (by norm_num))
      rw [hbyte]
      simp [writeAll]
      omega

/-- The emission loop overflows the buffer with an `IndexError` when the
reference groups do not fit. -/
theorem varint_loop_overflow : ∀ (v : Nat) (buf : List Nat) (count : Nat),
    buf.length < count + (refVarint v).length →
    varint_loop v buf count = .error .indexError := by
  intro v
  induction v using Nat.strong_induction_on with
  | _ v ih =>
    intro buf count hover
    by_cases hcount : count < buf.length
    · -- the write at `count` succeeds, so the value must still be large
      have h' : 128 ≤ v := by
        by_contra h
        rw [refVarint_small (by omega)] at hover
        simp only [List.length_singleton] at hover
        omega
      have hgo : v >>> 7 ≠ 0 := by
        rw [shiftRight_7_eq_div]
        have : 1 ≤ v / 128 := (Nat.one_le_div_iff (by norm_num)).mpr h'
        omega
      rw [varint_loop]
      simp only [dif_pos hgo]
      rw [bytearray_set, if_pos hcount]
      exact ih (v >>> 7) (by
          rw [shiftRight_7_eq_div]
          exact Nat.div_lt_self (by omega) (by norm_num))
        _ (count + 1) (by
          rw [List.length_set, shiftRight_7_eq_div]
          rw [refVarint_large h'] at hover
          simp only [List.length_cons] at hover
          omega)
    · -- the very first write is out of range
      rw [varint_loop]
      by_cases hgo : v >>> 7 ≠ 0
      · simp only [dif_pos hgo]
        rw [bytearray_set, if_neg hcount]
      · simp only [dif_neg hgo]
        rw [bytearray_set, if_neg hcount]

/-- Full characterization of `varint_bytes`: negative values raise
`TypeError`; values whose reference encoding fits the 9-byte buffer return
exactly that encoding; larger values overflow `buf[9]` with an `IndexError`. -/
theorem varint_bytes_eq (v : Int) : varint_bytes v =
    if v < 0 then .error .typeError
    else if (refVarint v.toNat).length ≤ 9 then .ok (refVarint v.toNat)
    else .error .indexError := by
  by_cases hneg : v < 0
  · simp [varint_bytes, hneg]
  · rw [varint_bytes]
    simp only [hneg, if_false]
    by_cases hfit : (refVarint v.toNat).length ≤ 9
    · have hok := varint_loop_ok v.toNat (List.replicate 9 0) 0 (by simpa using hfit)
      simp only [hok]
      have := writeAll_take (refVarint v.toNat) (List.replicate 9 0) 0 (by simpa using hfit)
      simp only [Nat.zero_add] at this ⊢
      rw [this, if_pos hfit]
      simp
    · have hov := varint_loop_overflow v.toNat (List.replicate 9 0) 0 (by
        simp only [List.length_replicate]
        omega)
      rw [hov, if_neg hfit]

/-- Decoding the reference groups recovers the value and consumes exactly
the encoding, whatever follows in the stream. -/
theorem decode_refVarint : ∀ (v : Nat) (rest : List Nat),
    decodeVarint (refVarint v ++ rest) = some (v, rest) := by
  intro v
  induction v using Nat.strong_induction_on with
  | _ v ih =>
    intro rest
    by_cases h : v < 128
    · simp [refVarint_small h, decodeVarint, h]
    · have h' : 128 ≤ v := Nat.not_lt.mp h
      rw [refVarint_large h']
      simp only [List.cons_append, decodeVarint]
      rw [if_neg (by omega)]
      simp only [List.append_eq]
      rw [ih (v / 128) (Nat.div_lt_self (by omega) (by norm_num)) rest]
      have hval : (v % 128 + 128) % 128 + 128 * (v / 128) = v := by omega
      show some ((v % 128 + 128) % 128 + 128 * (v / 128), rest) = some (v, rest)
      rw [hval]

theorem popFull_sublist : ∀ s : List Frame, (popFull s).Sublist s := by
  intro s
  induction s with
  | nil => exact List.Sublist.refl []
  | cons f s ih =>
    rw [popFull]
    split
    · exact ih.trans (List.sublist_cons_self f s)
    · exact List.Sublist.refl _

theorem Inv.popFull {s : List Frame} (h : Inv s) : Inv (popFull s) :=
  fun f hf => h f ((popFull_sublist s).mem hf)

theorem headNF_popFull {s : List Frame} (h : Inv s) : headNF (popFull s) := by
  induction s with
  | nil => trivial
  | cons f s ih =>
    rw [popFull]
    split
    · exact ih (fun g hg => h g (List.mem_cons_of_mem f hg))
    · have := h f (List.mem_cons_self f s)
      simp only [headNF]
      omega

theorem popFull_of_headNF : ∀ {s : List Frame}, headNF s → s ≠ [] → popFull s = s := by
  intro s h hne
  match s with
  | f :: s =>
    rw [popFull, if_neg]
    simp only [headNF] at h
    omega

theorem popFull_nil : popFull [] = [] := rfl

theorem aAddPart_of_headNF : ∀ {s : List Frame}, headNF s →
    aAddPart s = .ok (aAddPartPure s) := by
  intro s h
  match s with
  | [] => rfl
  | f :: s =>
    simp only [headNF] at h
    rw [aAddPart, if_neg (by omega)]
    rfl

theorem Inv.aAddPartPure {s : List Frame} (h : Inv s) (hnf : headNF s) :
    Inv (WXF.aAddPartPure s) := by
  match s with
  | [] => exact h
  | f :: s =>
    simp only [headNF] at hnf
    rw [WXF.aAddPartPure]
    apply Inv.popFull
    intro g hg
    rcases List.mem_cons.mp hg with hg | hg
    · subst hg; simp; omega
    · exact h g (List.mem_cons_of_mem f hg)

theorem headNF_aAddPartPure {s : List Frame} (h : Inv s) (hnf : headNF s) :
    headNF (WXF.aAddPartPure s) := by
  match s with
  | [] => trivial
  | f :: s =>
    rw [WXF.aAddPartPure]
    apply headNF_popFull
    intro g hg
    simp only [headNF] at hnf
    rcases List.mem_cons.mp hg with hg | hg
    · subst hg; simp; omega
    · exact h g (List.mem_cons_of_mem f hg)

/-- Popping a fully-inserted block of frames skips over it. -/
theorem popFull_append_of_room_zero : ∀ (w : List Frame), Inv w → aRoom w = 0 →
    ∀ x : List Frame, popFull (w ++ x) = popFull x := by
  intro w
  induction w with
  | nil => intro _ _ x; rfl
  | cons f w ih =>
    intro hinv hroom x
    have hf := hinv f (List.mem_cons_self f w)
    simp only [aRoom, List.map_cons, List.sum_cons] at hroom
    have hfull : f.inserted = f.expected := by omega
    rw [List.cons_append, popFull, if_pos hfull]
    exact ih (fun g hg => hinv g (List.mem_cons_of_mem f hg))
      (by simp only [aRoom]; omega) x

theorem view_len_le {α : Type} {l g : List α} (h : l.take g.length = g.reverse) :
    g.length ≤ l.length := by
  have := congrArg List.length h
  simp only [List.length_take, List.length_reverse] at this
  omega

theorem pyIndex_nonneg {n j : Nat} (h : j < n) : pyIndex n (j : Int) = some j := by
  rw [pyIndex, if_pos (Int.natCast_nonneg j), if_pos (by exact_mod_cast h)]
  simp

theorem pyIndex_neg_one {n : Nat} (h : 1 ≤ n) : pyIndex n (-1) = some (n - 1) := by
  rw [pyIndex, if_neg (by omega), if_pos (by omega)]
  congr 1
  omega

/-- Reading the stack at the live top yields the head of the view. -/
theorem pyGet_view {α : Type} {l g : List α} {x : α}
    (h : l.take (g.length + 1) = (x :: g).reverse) :
    pyGet l (g.length : Int) = some x := by
  have hlen : g.length + 1 ≤ l.length := by
    have := view_len_le (g := x :: g) (by simpa using h)
    simpa using this
  rw [pyGet, pyIndex_nonneg (by omega)]
  have h1 : (l.take (g.length + 1))[g.length]? = l[g.length]? :=
    List.getElem?_take_of_lt (by omega)
  rw [h] at h1
  have h2 : ((x :: g).reverse)[g.length]? = (x :: g)[(x :: g).length - 1 - g.length]? :=
    List.getElem?_reverse (by simp)
  simp only [List.length_cons, Nat.add_sub_cancel, Nat.sub_self] at h2
  show l.get? g.length = some x
  rw [List.get?_eq_getElem?, ← h1, h2]
  simp

/-- Writing the stack at the live top replaces the head of the view. -/
theorem pySet_view {α : Type} {l g : List α} {x : α} (y : α)
    (h : l.take (g.length + 1) = (x :: g).reverse) :
    pySet l (g.length : Int) y = some (l.set g.length y) ∧
    (l.set g.length y).take (g.length + 1) = (y :: g).reverse ∧
    (l.set g.length y).length = l.length := by
  have hlen : g.length + 1 ≤ l.length := by
    have := view_len_le (g := x :: g) (by simpa using h)
    simpa using this
  refine ⟨by rw [pySet, pyIndex_nonneg (by omega)], ?_, List.length_set l _ y⟩
  rw [List.set_take, h, List.reverse_cons, List.reverse_cons,
    List.set_append_right _ _ (by simp)]
  simp

/-- The view below the top. -/
theorem view_tail {α : Type} {l g : List α} {x : α}
    (h : l.take (g.length + 1) = (x :: g).reverse) :
    l.take g.length = g.reverse := by
  have h1 : l.take g.length = (l.take (g.length + 1)).take g.length := by
    rw [List.take_take, Nat.min_eq_left (by omega)]
  rw [h1, h, List.reverse_cons, List.take_left' (by simp)]

/-- Growing the view by one: `_set_at_index_or_append` at index `g.length`. -/
theorem set_at_index_or_append_view {α : Type} {l g : List α} (v : α)
    (htake : l.take g.length = g.reverse) :
    ∃ l', set_at_index_or_append l (g.length : Int) v = .ok l' ∧
      l'.take (g.length + 1) = (v :: g).reverse ∧
      g.length + 1 ≤ l'.length ∧ l.length ≤ l'.length := by
  have hlen : g.length ≤ l.length := view_len_le htake
  by_cases heq : l.length = g.length
  · refine ⟨l ++ [v], ?_, ?_, by simp; omega, by simp⟩
    · rw [set_at_index_or_append, if_pos (by exact_mod_cast heq)]
    · rw [List.reverse_cons, ← htake, ← heq, List.take_length,
        List.take_of_length_le (by simp [heq])]
  · have hlt : g.length < l.length := by omega
    refine ⟨l.set g.length v, ?_, ?_, by simp; omega, by simp⟩
    · rw [set_at_index_or_append, if_neg (by exact_mod_cast heq),
        if_pos (by exact_mod_cast hlt), pySet, pyIndex_nonneg hlt]
    · rw [List.set_take, List.take_succ, List.getElem?_eq_getElem hlt]
      rw [htake, List.reverse_cons, List.set_append_right _ _ (by simp)]
      simp

theorem Rel_fresh : Rel freshCtx [⟨1, 0, false⟩] := by
  refine ⟨rfl, ?_, ?_, ?_, rfl, rfl, rfl⟩ <;> simp [freshCtx]

/-- `_step_out_finalized_expr` only moves `_depth`, and it realizes
`popFull` on the abstract stack. -/
theorem sim_step_out_fuel : ∀ (s : List Frame) (c : SCtx), Rel c s →
    step_out_fuel s.length c = .ok { c with depth := ((popFull s).length : Int) - 1 } ∧
    Rel { c with depth := ((popFull s).length : Int) - 1 } (popFull s) := by
  intro s
  induction s with
  | nil =>
    intro c hrel
    obtain ⟨hd, h1, h2, h3, h4, h5, h6⟩ := hrel
    have hc : { c with depth := ((popFull []).length : Int) - 1 } = c := by
      have : c.depth = ((popFull []).length : Int) - 1 := by
        simpa [popFull] using hd
      rw [← this]
    rw [hc]
    exact ⟨rfl, hd, h1, h2, h3, h4, h5, h6⟩
  | cons f s' ih =>
    intro c hrel
    obtain ⟨hd, h1, h2, h3, h4, h5, h6⟩ := hrel
    simp only [List.length_cons, List.map_cons] at hd h4 h5 h6
    have hd' : c.depth = (s'.length : Int) := by omega
    have hgi : pyGet c.idx c.depth = some f.inserted := by
      rw [hd']
      have := pyGet_view (l := c.idx) (g := s'.map Frame.inserted)
        (x := f.inserted) (by simpa using h5)
      simpa using this
    have hge : pyGet c.exp c.depth = some f.expected := by
      rw [hd']
      have := pyGet_view (l := c.exp) (g := s'.map Frame.expected)
        (x := f.expected) (by simpa using h4)
      simpa using this
    rw [List.length_cons, step_out_fuel]
    rw [if_pos (by omega)]
    simp only [hgi, hge]
    by_cases hfull : f.inserted = f.expected
    · rw [if_pos hfull]
      have hrel' : Rel { c with depth := c.depth - 1 } s' := by
        refine ⟨by simp; omega, h1, h2, h3, ?_, ?_, ?_⟩
        · have := view_tail (l := c.exp) (g := s'.map Frame.expected)
            (x := f.expected) (by simpa using h4)
          simpa using this
        · have := view_tail (l := c.idx) (g := s'.map Frame.inserted)
            (x := f.inserted) (by simpa using h5)
          simpa using this
        · have := view_tail (l := c.assoc) (g := s'.map Frame.isAssoc)
            (x := f.isAssoc) (by simpa using h6)
          simpa using this
      have := ih { c with depth := c.depth - 1 } hrel'
      rw [popFull, if_pos hfull]
      exact this
    · rw [if_neg hfull]
      rw [popFull, if_neg hfull]
      simp only [List.length_cons]
      have hc : { c with depth := ((s'.length + 1 : Nat) : Int) - 1 } = c := by
        have hh : c.depth = ((s'.length + 1 : Nat) : Int) - 1 := hd
        rw [← hh]
      rw [hc]
      refine ⟨rfl, by simp; omega, h1, h2, h3, ?_, ?_, ?_⟩ <;>
        simp only [List.length_cons, List.map_cons] <;> assumption

theorem sim_step_out (s : List Frame) (c : SCtx) (hrel : Rel c s) :
    step_out_finalized_expr c = .ok { c with depth := ((popFull s).length : Int) - 1 } ∧
    Rel { c with depth := ((popFull s).length : Int) - 1 } (popFull s) := by
  have hfuel : (c.depth + 1).toNat = s.length := by
    obtain ⟨hd, _⟩ := hrel
    omega
  rw [step_out_finalized_expr, hfuel]
  exact sim_step_out_fuel s c hrel

/-- `add_part` realizes `aAddPart`: whenever the abstract step succeeds,
the concrete one does, and the results stay related. -/
theorem sim_add_part : ∀ (s s' : List Frame) (c : SCtx), Rel c s →
    aAddPart s = .ok s' → ∃ c', add_part c = .ok c' ∧ Rel c' s' := by
  intro s s' c hrel habs
  match s with
  | [] =>
    rw [aAddPart] at habs
    injection habs with habs
    subst habs
    obtain ⟨hd, h1, h2, h3, h4, h5, h6⟩ := hrel
    simp only [List.length_nil, Nat.cast_zero, zero_sub] at hd
    have hcheck : check_insert c = .ok () := by
      rw [check_insert, if_neg (by omega)]
    obtain ⟨v, hv⟩ : ∃ v, c.idx.get? (c.idx.length - 1) = some v := by
      rw [List.get?_eq_getElem?, List.getElem?_eq_getElem (by omega)]
      exact ⟨_, rfl⟩
    have hidx : pyGet c.idx c.depth = some v := by
      rw [pyGet, hd, pyIndex_neg_one h2]
      exact hv
    have hset : pySet c.idx c.depth (v + 1)
        = some (c.idx.set (c.idx.length - 1) (v + 1)) := by
      rw [pySet, hd, pyIndex_neg_one h2]
    refine ⟨{ c with idx := c.idx.set (c.idx.length - 1) (v + 1) }, ?_, ?_⟩
    · rw [add_part, hcheck]
      show (match pyGet c.idx c.depth with
        | some i =>
          match pySet c.idx c.depth (i + 1) with
          | some idx' => step_out_finalized_expr { c with idx := idx' }
          | none => Except.error PyErr.indexError
        | none => Except.error PyErr.indexError) = _
      simp only [hidx, hset]
      rw [step_out_finalized_expr]
      have hfz : (({ c with idx := c.idx.set (c.idx.length - 1) (v + 1) } : SCtx).depth
          + 1).toNat = 0 := by simp [hd]
      rw [hfz, step_out_fuel]
    · exact ⟨by simp [hd], h1, by simpa using h2, h3, by simp, by simp, by simp⟩
  | f :: s'' =>
    rw [aAddPart] at habs
    by_cases hroom : f.expected ≤ f.inserted
    · rw [if_pos hroom] at habs
      exact absurd habs (by simp)
    · rw [if_neg hroom] at habs
      injection habs with habs
      obtain ⟨hd, h1, h2, h3, h4, h5, h6⟩ := hrel
      simp only [List.length_cons, List.map_cons] at hd h4 h5 h6
      have hd' : c.depth = (s''.length : Int) := by omega
      have hgi : pyGet c.idx c.depth = some f.inserted := by
        rw [hd']
        have := pyGet_view (l := c.idx) (g := s''.map Frame.inserted)
          (x := f.inserted) (by simpa using h5)
        simpa using this
      have hge : pyGet c.exp c.depth = some f.expected := by
        rw [hd']
        have := pyGet_view (l := c.exp) (g := s''.map Frame.expected)
          (x := f.expected) (by simpa using h4)
        simpa using this
      have hcheck : check_insert c = .ok () := by
        rw [check_insert, if_pos (by omega)]
        simp only [hgi, hge]
        rw [if_neg hroom]
      have hsv := pySet_view (l := c.idx) (g := s''.map Frame.inserted)
        (x := f.inserted) (f.inserted + 1) (by simpa using h5)
      obtain ⟨hset, htake', hlen'⟩ := hsv
      simp only [List.length_map] at hset htake' hlen'
      have hrel₂ : Rel { c with idx := c.idx.set s''.length (f.inserted + 1) }
          ({ f with inserted := f.inserted + 1 } :: s'') := by
        refine ⟨by simp; omega, h1, by simp; omega, h3, ?_, ?_, ?_⟩
        · simpa using h4
        · simpa using htake'
        · simpa using h6
      have hout := sim_step_out _ _ hrel₂
      refine ⟨(⟨((popFull ({ f with inserted := f.inserted + 1 } :: s'')).length : Int) - 1,
        c.exp, c.idx.set s''.length (f.inserted + 1), c.assoc⟩ : SCtx), ?_, ?_⟩
      · rw [add_part, hcheck]
        show (match pyGet c.idx c.depth with
          | some i =>
            match pySet c.idx c.depth (i + 1) with
            | some idx' => step_out_finalized_expr { c with idx := idx' }
            | none => Except.error PyErr.indexError
          | none => Except.error PyErr.indexError) = _
        have hsetd : pySet c.idx c.depth (f.inserted + 1)
            = some (c.idx.set s''.length (f.inserted + 1)) := by
          rw [hd']
          exact hset
        simp only [hgi, hsetd]
        exact hout.1
      · rw [← habs]
        exact hout.2

theorem exceptBind_ok {α β : Type} (x : α) (f : α → Except PyErr β) :
    (Except.ok x >>= f) = f x := rfl

theorem exceptBind_err {α β : Type} (e : PyErr) (f : α → Except PyErr β) :
    ((Except.error e : Except PyErr α) >>= f) = Except.error e := rfl

/-- `step_in_new_expr` realizes `aStepIn`. -/
theorem sim_step_in : ∀ (s s' : List Frame) (n : Nat) (a : Bool) (c : SCtx), Rel c s →
    aStepIn n a s = .ok s' → ∃ c', step_in_new_expr c n a = .ok c' ∧ Rel c' s' := by
  intro s s' n a c hrel habs
  rw [aStepIn] at habs
  cases haa : aAddPart s with
  | error e =>
    rw [haa, exceptBind_err] at habs
    exact absurd habs (by simp)
  | ok s₁ =>
    rw [haa, exceptBind_ok] at habs
    injection habs with habs
    obtain ⟨c₁, hc₁, hrel₁⟩ := sim_add_part s s₁ c hrel haa
    obtain ⟨hd1, k1, k2, k3, k4, k5, k6⟩ := hrel₁
    have hdp : c₁.depth + 1 = (s₁.length : Int) := by omega
    have hexp := set_at_index_or_append_view (l := c₁.exp) (g := s₁.map Frame.expected)
      n (by simpa using k4)
    obtain ⟨exp₁, hexp_eq, hexp_take, hexp_len, hexp_len0⟩ := hexp
    simp only [List.length_map] at hexp_eq hexp_take hexp_len
    have hidx := set_at_index_or_append_view (l := c₁.idx) (g := s₁.map Frame.inserted)
      0 (by simpa using k5)
    obtain ⟨idx₁, hidx_eq, hidx_take, hidx_len, hidx_len0⟩ := hidx
    simp only [List.length_map] at hidx_eq hidx_take hidx_len
    have hassoc := set_at_index_or_append_view (l := c₁.assoc) (g := s₁.map Frame.isAssoc)
      a (by simpa using k6)
    obtain ⟨assoc₁, hassoc_eq, hassoc_take, hassoc_len, hassoc_len0⟩ := hassoc
    simp only [List.length_map] at hassoc_eq hassoc_take hassoc_len
    have hexp_eq' : set_at_index_or_append c₁.exp (c₁.depth + 1) n = .ok exp₁ := by
      rw [hdp]; exact hexp_eq
    have hidx_eq' : set_at_index_or_append c₁.idx (c₁.depth + 1) 0 = .ok idx₁ := by
      rw [hdp]; exact hidx_eq
    have hassoc_eq' : set_at_index_or_append c₁.assoc (c₁.depth + 1) a = .ok assoc₁ := by
      rw [hdp]; exact hassoc_eq
    have hexp2cond : ¬ ((exp₁.length : Int) ≤ c₁.depth + 1) := by
      rw [hdp]; omega
    have hidx2cond : ¬ ((idx₁.length : Int) ≤ c₁.depth + 1) := by
      rw [hdp]; omega
    have hexp2set : pySet exp₁ (c₁.depth + 1) n = some (exp₁.set s₁.length n) := by
      rw [hdp, pySet, pyIndex_nonneg (by omega)]
    have hidx2set : pySet idx₁ (c₁.depth + 1) 0 = some (idx₁.set s₁.length 0) := by
      rw [hdp, pySet, pyIndex_nonneg (by omega)]
    have hexp2_take : (exp₁.set s₁.length n).take (s₁.length + 1)
        = (n :: s₁.map Frame.expected).reverse := by
      rw [List.set_take, hexp_take, List.reverse_cons,
        List.set_append_right _ _ (by simp)]
      simp
    have hidx2_take : (idx₁.set s₁.length 0).take (s₁.length + 1)
        = ((0 : Nat) :: s₁.map Frame.inserted).reverse := by
      rw [List.set_take, hidx_take, List.reverse_cons,
        List.set_append_right _ _ (by simp)]
      simp
    have hrel₂ : Rel ⟨c₁.depth + 1, exp₁.set s₁.length n, idx₁.set s₁.length 0, assoc₁⟩
        (⟨n, 0, a⟩ :: s₁) := by
      refine ⟨by simp; omega, by simp; omega, by simp; omega, by simp; omega, ?_, ?_, ?_⟩
      · simpa using hexp2_take
      · simpa using hidx2_take
      · simpa using hassoc_take
    have hout := sim_step_out _ _ hrel₂
    refine ⟨(⟨((popFull (⟨n, 0, a⟩ :: s₁)).length : Int) - 1, exp₁.set s₁.length n,
      idx₁.set s₁.length 0, assoc₁⟩ : SCtx), ?_, ?_⟩
    · rw [step_in_new_expr]
      simp only [hc₁, exceptBind_ok, hexp_eq', hidx_eq', hassoc_eq',
        if_neg hexp2cond, if_neg hidx2cond, hexp2set, hidx2set]
      exact hout.1
    · rw [← habs]
      exact hout.2

/-- Whole runs transfer along the simulation. -/
theorem sim_run : ∀ (acts : List SAction) (s s' : List Frame) (c : SCtx), Rel c s →
    aRun acts s = .ok s' → ∃ c', runActions acts c = .ok c' ∧ Rel c' s' := by
  intro acts
  induction acts with
  | nil =>
    intro s s' c hrel h
    rw [aRun] at h
    injection h with h
    subst h
    exact ⟨c, rfl, hrel⟩
  | cons act rest ih =>
    intro s s' c hrel h
    rw [aRun] at h
    cases hstep : aRunAction s act with
    | error e =>
      rw [hstep, exceptBind_err] at h
      exact absurd h (by simp)
    | ok s₁ =>
      rw [hstep, exceptBind_ok] at h
      cases act with
      | part =>
        simp only [aRunAction] at hstep
        obtain ⟨c₁, hc₁, hrel₁⟩ := sim_add_part s s₁ c hrel hstep
        obtain ⟨c', hc', hrel'⟩ := ih s₁ s' c₁ hrel₁ h
        refine ⟨c', ?_, hrel'⟩
        rw [runActions]
        simp only [runAction, hc₁, exceptBind_ok]
        exact hc'
      | stepIn n a =>
        simp only [aRunAction] at hstep
        obtain ⟨c₁, hc₁, hrel₁⟩ := sim_step_in s s₁ n a c hrel hstep
        obtain ⟨c', hc', hrel'⟩ := ih s₁ s' c₁ hrel₁ h
        refine ⟨c', ?_, hrel'⟩
        rw [runActions]
        simp only [runAction, hc₁, exceptBind_ok]
        exact hc'

/-- `is_valid_final_state` observes emptiness of the abstract stack. -/
theorem Rel_final_state {c : SCtx} {s : List Frame} (h : Rel c s) :
    c.is_valid_final_state = true ↔ s = [] := by
  obtain ⟨hd, _⟩ := h
  rw [SCtx.is_valid_final_state]
  constructor
  · intro hb
    have hdd : c.depth = -1 := by simpa using hb
    have : s.length = 0 := by omega
    exact List.length_eq_zero.mp this
  · intro hs
    subst hs
    simp only [List.length_nil, Nat.cast_zero, zero_sub] at hd
    simp [hd]

/-- `is_rule_valid` observes the association flag of the top live frame. -/
theorem Rel_rule_valid {c : SCtx} {f : Frame} {s' : List Frame}
    (h : Rel c (f :: s')) : is_rule_valid c = .ok f.isAssoc := by
  obtain ⟨hd, h1, h2, h3, h4, h5, h6⟩ := h
  simp only [List.length_cons, List.map_cons] at hd h6
  have hd' : c.depth = (s'.length : Int) := by omega
  rw [is_rule_valid, hd']
  have hv := pyGet_view (l := c.assoc) (g := s'.map Frame.isAssoc)
    (x := f.isAssoc) (by simpa using h6)
  simp only [List.length_map] at hv
  rw [hv]

theorem wfTreeL_forall : ∀ cs : List ExprTree,
    wfTreeL cs = true ↔ ∀ c ∈ cs, wfTree c = true := by
  intro cs
  induction cs with
  | nil => simp [wfTreeL]
  | cons c cs ih =>
    rw [wfTreeL]
    simp only [Bool.and_eq_true, ih, List.mem_cons]
    constructor
    · rintro ⟨h1, h2⟩ d (rfl | hd)
      · exact h1
      · exact h2 d hd
    · intro h
      exact ⟨h c (Or.inl rfl), fun d hd => h d (Or.inr hd)⟩

theorem treeActionsL_append : ∀ l₁ l₂ : List ExprTree,
    treeActionsL (l₁ ++ l₂) = treeActionsL l₁ ++ treeActionsL l₂ := by
  intro l₁
  induction l₁ with
  | nil => intro l₂; simp [treeActionsL]
  | cons c cs ih =>
    intro l₂
    rw [List.cons_append, treeActionsL, treeActionsL, ih, List.append_assoc]

theorem aRun_append : ∀ (xs ys : List SAction) (s : List Frame),
    aRun (xs ++ ys) s = aRun xs s >>= aRun ys := by
  intro xs
  induction xs with
  | nil => intro ys s; rfl
  | cons x xs ih =>
    intro ys s
    rw [List.cons_append, aRun, aRun]
    cases h : aRunAction s x with
    | error e => simp only [h, exceptBind_err]
    | ok s₁ =>
      simp only [h, exceptBind_ok]
      exact ih ys s₁

theorem popFull_stable_eq : ∀ {s : List Frame}, headNF s → popFull s = s := by
  intro s h
  match s with
  | [] => rfl
  | f :: s =>
    simp only [headNF] at h
    rw [popFull, if_neg (by omega)]

theorem Inv_cons {f : Frame} {tail : List Frame} (hf : f.inserted ≤ f.expected)
    (ht : Inv tail) : Inv (f :: tail) := by
  intro g hg
  rcases List.mem_cons.mp hg with rfl | hg
  · exact hf
  · exact ht g hg

mutual

/-- Running the encoder's call sequence for one well-formed tree from any
state whose top frame has room behaves exactly like one `add_part`:
it consumes one slot of the current frame and pops what completes. -/
theorem runTree_wf (t : ExprTree) : ∀ (s : List Frame), wfTree t = true →
    Inv s → headNF s →
    aRun (treeActions t) s = .ok (aAddPartPure s) := by
  match t with
  | .leaf =>
    intro s _ _ hnf
    rw [treeActions, aRun, aRunAction, aAddPart_of_headNF hnf, exceptBind_ok, aRun]
  | .node a n cs =>
    intro s hwf hinv hnf
    rw [wfTree, Bool.and_eq_true, beq_iff_eq] at hwf
    obtain ⟨hn, hwfL⟩ := hwf
    rw [treeActions, aRun, aRunAction, aStepIn, aAddPart_of_headNF hnf,
      exceptBind_ok, exceptBind_ok]
    have hinv₁ : Inv (aAddPartPure s) := Inv.aAddPartPure hinv hnf
    have hnf₁ : headNF (aAddPartPure s) := headNF_aAddPartPure hinv hnf
    cases cs with
    | nil =>
      have hn0 : n = 0 := by simpa using hn
      subst hn0
      have hpop : popFull (⟨0, 0, a⟩ :: aAddPartPure s) = aAddPartPure s := by
        rw [popFull, if_pos rfl]
        exact popFull_stable_eq hnf₁
      rw [hpop, treeActionsL, aRun]
    | cons c cs' =>
      have hn' : n = cs'.length + 1 := by simpa using hn
      subst hn'
      have hpop : popFull (⟨cs'.length + 1, 0, a⟩ :: aAddPartPure s)
          = ⟨cs'.length + 1, 0, a⟩ :: aAddPartPure s := by
        rw [popFull, if_neg (by simp)]
      rw [hpop]
      have hrun := runTreeL_wf (c :: cs') (cs'.length + 1) 0 a (aAddPartPure s)
        ((wfTreeL_forall _).mp hwfL) hinv₁ (by omega) (by simp)
      rw [hrun, if_neg (by simp)]
      rw [popFull_stable_eq hnf₁]

/-- Running the call sequences of a list of well-formed trees from an open
frame with enough room consumes one slot per tree; the frame is popped
(cascading into `tail`) exactly when it becomes full. -/
theorem runTreeL_wf (cs : List ExprTree) : ∀ (n j : Nat) (a : Bool) (tail : List Frame),
    (∀ c ∈ cs, wfTree c = true) → Inv tail → j < n → j + cs.length ≤ n →
    aRun (treeActionsL cs) (⟨n, j, a⟩ :: tail)
      = .ok (if j + cs.length < n then ⟨n, j + cs.length, a⟩ :: tail
             else popFull tail) := by
  match cs with
  | [] =>
    intro n j a tail _ _ hj _
    rw [treeActionsL, aRun]
    simp only [List.length_nil, Nat.add_zero]
    rw [if_pos hj]
  | c :: cs' =>
    intro n j a tail hwf hinv hj hfit
    rw [treeActionsL, aRun_append]
    have hrunc := runTree_wf c (⟨n, j, a⟩ :: tail) (hwf c (List.mem_cons_self c cs'))
      (Inv_cons (by exact Nat.le_of_lt hj) hinv) (by exact hj)
    rw [hrunc, exceptBind_ok]
    simp only [aAddPartPure]
    have hupd : ({ (⟨n, j, a⟩ : Frame) with inserted := j + 1 } : Frame)
        = ⟨n, j + 1, a⟩ := rfl
    rw [hupd]
    by_cases hlast : j + 1 < n
    · have hpop : popFull (⟨n, j + 1, a⟩ :: tail) = ⟨n, j + 1, a⟩ :: tail := by
        rw [popFull, if_neg (by simp; omega)]
      rw [hpop]
      have hrec := runTreeL_wf cs' n (j + 1) a tail
        (fun d hd => hwf d (List.mem_cons_of_mem c hd)) hinv hlast (by
          simp only [List.length_cons] at hfit
          omega)
      rw [hrec]
      simp only [List.length_cons]
      have harith : j + (cs'.length + 1) = j + 1 + cs'.length := by omega
      rw [harith]
    · have hn : j + 1 = n := by omega
      have hcs' : cs' = [] := by
        rw [← List.length_eq_zero]
        simp only [List.length_cons] at hfit
        omega
      subst hcs'
      have hpop : popFull (⟨n, j + 1, a⟩ :: tail) = popFull tail := by
        rw [popFull, if_pos (by simp [hn])]
      rw [hpop, treeActionsL, aRun, if_neg (by simp; omega)]

end

theorem Inv_append {w x : List Frame} (hw : Inv w) (hx : Inv x) : Inv (w ++ x) := by
  intro g hg
  rcases List.mem_append.mp hg with hg | hg
  · exact hw g hg
  · exact hx g hg

theorem headNF_append {w : List Frame} (hne : w ≠ []) (hnf : headNF w)
    (x : List Frame) : headNF (w ++ x) := by
  match w with
  | g :: w' => exact hnf

theorem aRoom_cons (f : Frame) (s : List Frame) :
    aRoom (f :: s) = (f.expected - f.inserted) + aRoom s := by
  simp [aRoom]

/-- A leftover block with exactly one slot of room is consumed whole by a
single `add_part`-like step: the increment fills its head, and the cascade
pops the entire block. -/
theorem aAddPartPure_append_room_one {w : List Frame} (hinv : Inv w)
    (hnf : headNF w) (hne : w ≠ []) (hroom : aRoom w = 1) (x : List Frame) :
    aAddPartPure (w ++ x) = popFull x := by
  match w with
  | g :: w' =>
    simp only [headNF] at hnf
    have hg := hinv g (List.mem_cons_self g w')
    rw [aRoom_cons] at hroom
    have hgroom : g.expected = g.inserted + 1 := by omega
    have hw'room : aRoom w' = 0 := by omega
    have hw'inv : Inv w' := fun f hf => hinv f (List.mem_cons_of_mem g hf)
    show popFull ({ g with inserted := g.inserted + 1 } :: (w' ++ x)) = popFull x
    rw [popFull, if_pos (by simp [hgroom])]
    exact popFull_append_of_room_zero w' hw'inv hw'room x

/-- Running the call sequence of a tree whose final child (at the node
reached along `p`) has been dropped leaves a non-empty block of unfinished
frames with exactly one slot of room on top of what a complete run would
leave. -/
theorem runTree_trunc : ∀ (p : List Nat) (t t' : ExprTree) (s : List Frame),
    wfTree t = true → truncAt t p = some t' → Inv s → headNF s → s ≠ [] →
    ∃ w, aRun (treeActions t') s = .ok (w ++ aAddPartPure s) ∧ w ≠ [] ∧
      Inv w ∧ headNF w ∧ aRoom w = 1 := by
  intro p
  induction p with
  | nil =>
    intro t t' s hwf htr hinv hnf hne
    match t with
    | .leaf => rw [truncAt] at htr; exact absurd htr (by simp)
    | .node a n cs =>
      rw [truncAt] at htr
      by_cases hcs : cs.length = 0
      · rw [if_pos hcs] at htr
        exact absurd htr (by simp)
      · rw [if_neg hcs] at htr
        injection htr with htr
        subst htr
        rw [wfTree, Bool.and_eq_true, beq_iff_eq] at hwf
        obtain ⟨hn, hwfL⟩ := hwf
        rw [treeActions, aRun, aRunAction, aStepIn, aAddPart_of_headNF hnf,
          exceptBind_ok, exceptBind_ok]
        have hinv₁ : Inv (aAddPartPure s) := Inv.aAddPartPure hinv hnf
        have hpop : popFull (⟨n, 0, a⟩ :: aAddPartPure s)
            = ⟨n, 0, a⟩ :: aAddPartPure s := by
          rw [popFull, if_neg (by simp; omega)]
        rw [hpop]
        have hrun := runTreeL_wf cs.dropLast n 0 a (aAddPartPure s)
          (fun c hc => (wfTreeL_forall cs).mp hwfL c ((List.dropLast_sublist cs).subset hc))
          hinv₁ (by omega) (by simp only [List.length_dropLast]; omega)
        simp only [List.length_dropLast] at hrun
        rw [hrun, if_pos (by omega)]
        refine ⟨[⟨n, 0 + (cs.length - 1), a⟩], rfl, by simp, ?_, ?_, ?_⟩
        · intro g hg
          rcases List.mem_singleton.mp hg with rfl
          show 0 + (cs.length - 1) ≤ n
          omega
        · show 0 + (cs.length - 1) < n
          omega
        · rw [aRoom_cons]
          show n - (0 + (cs.length - 1)) + aRoom [] = 1
          simp [aRoom]
          omega
  | cons k p' ih =>
    intro t t' s hwf htr hinv hnf hne
    match t with
    | .leaf => rw [truncAt] at htr; exact absurd htr (by simp)
    | .node a n cs =>
      rw [truncAt] at htr
      cases hget : cs.get? k with
      | none =>
        simp only [hget] at htr
        exact absurd htr (by simp)
      | some c =>
        simp only [hget] at htr
        cases htrc : truncAt c p' with
        | none =>
          simp only [htrc] at htr
          exact absurd htr (by simp)
        | some c' =>
          simp only [htrc, Option.some.injEq] at htr
          subst htr
          rw [wfTree, Bool.and_eq_true, beq_iff_eq] at hwf
          obtain ⟨hn, hwfL⟩ := hwf
          have hk : k < cs.length := by
            by_contra hk
            rw [List.get?_eq_none.mpr (by omega)] at hget
            exact absurd hget (by simp)
          have hwfc : wfTree c = true :=
            (wfTreeL_forall cs).mp hwfL c (List.get?_mem hget)
          have hsetsplit : cs.set k c' = cs.take k ++ c' :: cs.drop (k + 1) := by
            rw [List.set_eq_take_append_cons_drop, if_pos hk]
          rw [treeActions, hsetsplit, treeActionsL_append, treeActionsL]
          rw [aRun, aRunAction, aStepIn, aAddPart_of_headNF hnf,
            exceptBind_ok, exceptBind_ok]
          have hinv₁ : Inv (aAddPartPure s) := Inv.aAddPartPure hinv hnf
          have hnf₁ : headNF (aAddPartPure s) := headNF_aAddPartPure hinv hnf
          have hpop : popFull (⟨n, 0, a⟩ :: aAddPartPure s)
              = ⟨n, 0, a⟩ :: aAddPartPure s := by
            rw [popFull, if_neg (by simp; omega)]
          rw [hpop, aRun_append]
          have htakelen : (cs.take k).length = k := by
            simp [List.length_take]
            omega
          have htake_run := runTreeL_wf (cs.take k) n 0 a (aAddPartPure s)
            (fun d hd => (wfTreeL_forall cs).mp hwfL d ((List.take_sublist k cs).subset hd))
            hinv₁ (by omega) (by rw [htakelen]; omega)
          rw [htakelen] at htake_run
          simp only [Nat.zero_add] at htake_run
          rw [htake_run, if_pos (by omega), exceptBind_ok, aRun_append]
          have hchild := ih c c' (⟨n, k, a⟩ :: aAddPartPure s) hwfc htrc
            (Inv_cons (show k ≤ n by omega) hinv₁) (show k < n by omega) (by simp)
          obtain ⟨w', hw'run, hw'ne, hw'inv, hw'nf, hw'room⟩ := hchild
          rw [hw'run, exceptBind_ok]
          have hpure : aAddPartPure (⟨n, k, a⟩ :: aAddPartPure s)
              = popFull (⟨n, k + 1, a⟩ :: aAddPartPure s) := rfl
          by_cases hklast : k + 1 < n
          · have hpop2 : popFull (⟨n, k + 1, a⟩ :: aAddPartPure s)
                = ⟨n, k + 1, a⟩ :: aAddPartPure s := by
              rw [popFull, if_neg (by simp; omega)]
            rw [hpure, hpop2]
            cases hdrop : cs.drop (k + 1) with
            | nil =>
              exfalso
              have := congrArg List.length hdrop
              simp at this
              omega
            | cons d rest =>
              rw [treeActionsL, aRun_append]
              have hdmem : d ∈ cs :=
                (List.drop_sublist (k + 1) cs).subset (hdrop ▸ List.mem_cons_self d rest)
              have hrund := runTree_wf d (w' ++ ⟨n, k + 1, a⟩ :: aAddPartPure s)
                ((wfTreeL_forall cs).mp hwfL d hdmem)
                (Inv_append hw'inv (Inv_cons (show k + 1 ≤ n by omega) hinv₁))
                (headNF_append hw'ne hw'nf _)
              rw [hrund, exceptBind_ok,
                aAddPartPure_append_room_one hw'inv hw'nf hw'ne hw'room, hpop2]
              have hrestlen : rest.length = n - k - 2 := by
                have := congrArg List.length hdrop
                simp at this
                omega
              have hrest := runTreeL_wf rest n (k + 1) a (aAddPartPure s)
                (fun e he => (wfTreeL_forall cs).mp hwfL e
                  ((List.drop_sublist (k + 1) cs).subset
                    (hdrop ▸ List.mem_cons_of_mem d he)))
                hinv₁ hklast (by omega)
              rw [hrest, if_pos (by omega)]
              refine ⟨[⟨n, k + 1 + rest.length, a⟩], rfl, by simp, ?_, ?_, ?_⟩
              · intro g hg
                rcases List.mem_singleton.mp hg with rfl
                show k + 1 + rest.length ≤ n
                omega
              · show k + 1 + rest.length < n
                omega
              · rw [aRoom_cons]
                show n - (k + 1 + rest.length) + aRoom [] = 1
                simp [aRoom]
                omega
          · have hdrop : cs.drop (k + 1) = [] := List.drop_eq_nil_of_le (by omega)
            rw [hdrop, treeActionsL, aRun]
            have hfin : aAddPartPure (⟨n, k, a⟩ :: aAddPartPure s)
                = aAddPartPure s := by
              rw [hpure, popFull, if_pos (by simp; omega)]
              exact popFull_stable_eq hnf₁
            rw [hfin]
            exact ⟨w', rfl, hw'ne, hw'inv, hw'nf, hw'room⟩

theorem await_future_append_fresh :
    ∀ (l : List (Nat × Except PyExn Nat)) (fid : Nat) (r : Except PyExn Nat),
    fid ∉ l.map Prod.fst →
    await_future (l ++ [(fid, r)]) fid = some r := by
  intro l
  induction l with
  | nil =>
    intro fid r _
    rw [List.nil_append, await_future, if_pos rfl]
  | cons p rest ih =>
    intro fid r hfid
    rw [List.cons_append, await_future]
    rw [List.map_cons, List.mem_cons, not_or] at hfid
    rw [if_neg (fun h => hfid.1 (by rw [h]))]
    exact ih fid r hfid.2

/-! ### Claim theorems -/

/-- C1 (counterexample): after `step_in_new_expr(2)` and two `add_part`
calls the root frame has been fully consumed (`depth = -1`,
`is_valid_final_state` true); a further `add_part` does NOT raise — it
silently succeeds and mutates the last frame's counter from 2 to 3 through
Python negative indexing, contradicting "a further add_part call raises
rather than mutating any frame's counter". -/
theorem c1_counterexample :
    runActions [.stepIn 2 false, .part, .part] freshCtx
      = .ok ⟨-1, [2], [2], [false]⟩ ∧
    SCtx.is_valid_final_state ⟨-1, [2], [2], [false]⟩ = true ∧
    add_part ⟨-1, [2], [2], [false]⟩ = .ok ⟨-1, [2], [3], [false]⟩ :=
  ⟨rfl, rfl, rfl⟩

/-- C1 (amended): in any context state with `depth ≥ 0` whose current frame
has `emitted-child-count ≥ expected-child-count`, `add_part` raises the
StructuralError (the `IndexError` of `_check_insert`); but in the state
where the root frame has been fully consumed (`depth = -1`) `add_part`
silently succeeds, incrementing the last stack slot via Python negative
indexing instead of raising. -/
theorem c1_amended : ∀ (c : SCtx) (i e : Nat),
    (0 ≤ c.depth → pyGet c.idx c.depth = some i → pyGet c.exp c.depth = some e →
      e ≤ i → add_part c = .error .structural) ∧
    (c.depth = -1 → pyGet c.idx c.depth = some i →
      add_part c = .ok { c with idx := c.idx.set (c.idx.length - 1) (i + 1) }) := by
  intro c i e
  constructor
  · intro hd hgi hge hei
    have hcheck : check_insert c = .error .structural := by
      rw [check_insert, if_pos hd]
      simp only [hgi, hge]
      rw [if_pos hei]
    rw [add_part, hcheck]
    rfl
  · intro hd hgi
    have hlen : 1 ≤ c.idx.length := by
      by_contra hlen
      have h0 : c.idx.length = 0 := by omega
      rw [hd, pyGet, h0] at hgi
      simp [pyIndex] at hgi
    have hcheck : check_insert c = .ok () := by
      rw [check_insert, if_neg (by omega)]
    have hset : pySet c.idx c.depth (i + 1)
        = some (c.idx.set (c.idx.length - 1) (i + 1)) := by
      rw [pySet, hd, pyIndex_neg_one hlen]
    rw [add_part, hcheck]
    show (match pyGet c.idx c.depth with
      | some i =>
        match pySet c.idx c.depth (i + 1) with
        | some idx' => step_out_finalized_expr { c with idx := idx' }
        | none => Except.error PyErr.indexError
      | none => Except.error PyErr.indexError) = _
    simp only [hgi, hset]
    rw [step_out_finalized_expr]
    have hfz : (({ c with idx := c.idx.set (c.idx.length - 1) (i + 1) } : SCtx).depth
        + 1).toNat = 0 := by simp [hd]
    rw [hfz, step_out_fuel]

theorem c1_amended_witness :
    add_part ⟨0, [1], [1], [false]⟩ = .error .structural ∧
    add_part ⟨-1, [2], [3], [false]⟩ = .ok ⟨-1, [2], [4], [false]⟩ :=
  ⟨(c1_amended ⟨0, [1], [1], [false]⟩ 1 1).1 (by decide) rfl rfl (by decide),
    (c1_amended ⟨-1, [2], [3], [false]⟩ 3 0).2 rfl rfl⟩

/-- C2: driving a fresh `SerializationContext` through the call sequence a
correct recursive encoder issues for a well-formed tree (one
`step_in_new_expr` with the declared child count per non-leaf, one
`add_part` per leaf) never raises and ends with `is_valid_final_state()`
true; omitting the final child of any node (the node still declaring its
original length) also never raises but ends with `is_valid_final_state()`
false. -/
theorem c2_wf_trees_validate_truncations_fail :
    (∀ t : ExprTree, wfTree t = true →
      ∃ c, runActions (treeActions t) freshCtx = .ok c ∧
        c.is_valid_final_state = true) ∧
    (∀ (t t' : ExprTree) (p : List Nat), wfTree t = true → truncAt t p = some t' →
      ∃ c, runActions (treeActions t') freshCtx = .ok c ∧
        c.is_valid_final_state = false) := by
  have hinv0 : Inv [(⟨1, 0, false⟩ : Frame)] := by
    intro g hg
    rcases List.mem_singleton.mp hg with rfl
    exact Nat.zero_le 1
  have hnf0 : headNF [(⟨1, 0, false⟩ : Frame)] := by exact Nat.zero_lt_one
  have hpure0 : aAddPartPure [(⟨1, 0, false⟩ : Frame)] = [] := rfl
  constructor
  · intro t hwf
    have habs := runTree_wf t [⟨1, 0, false⟩] hwf hinv0 hnf0
    rw [hpure0] at habs
    obtain ⟨c, hc, hrel⟩ :=
      sim_run (treeActions t) [⟨1, 0, false⟩] [] freshCtx Rel_fresh habs
    exact ⟨c, hc, (Rel_final_state hrel).mpr rfl⟩
  · intro t t' p hwf htr
    obtain ⟨w, hwrun, hwne, _, _, _⟩ :=
      runTree_trunc p t t' [⟨1, 0, false⟩] hwf htr hinv0 hnf0 (by simp)
    rw [hpure0, List.append_nil] at hwrun
    obtain ⟨c, hc, hrel⟩ := sim_run _ _ _ freshCtx Rel_fresh hwrun
    refine ⟨c, hc, ?_⟩
    have hiff := Rel_final_state hrel
    cases hb : c.is_valid_final_state with
    | false => rfl
    | true => exact absurd (hiff.mp hb) hwne

theorem c2_witness :
    (∃ c, runActions (treeActions (.node false 1 [.leaf])) freshCtx = .ok c ∧
      c.is_valid_final_state = true) ∧
    (∃ c, runActions (treeActions (.node false 1 [])) freshCtx = .ok c ∧
      c.is_valid_final_state = false) :=
  ⟨c2_wf_trees_validate_truncations_fail.1 (.node false 1 [.leaf])
      (by simp [wfTree, wfTreeL]),
    c2_wf_trees_validate_truncations_fail.2 (.node false 1 [.leaf])
      (.node false 1 []) [] (by simp [wfTree, wfTreeL]) rfl⟩

/-- C9 (counterexample): serializing an empty association
(`step_in_new_expr(0, is_assoc=True)`) consumes the whole expression —
`is_valid_final_state()` is true, no frame is current — yet
`is_rule_valid()` returns True in that state (Python index `-1` reads the
dead slot of the popped association frame), contradicting "never true in
any state where no frame opened as an association is the current frame
(including the final state)". -/
theorem c9_counterexample :
    runActions [.stepIn 0 true] freshCtx = .ok ⟨-1, [0], [0], [true]⟩ ∧
    SCtx.is_valid_final_state ⟨-1, [0], [0], [true]⟩ = true ∧
    is_rule_valid ⟨-1, [0], [0], [true]⟩ = .ok true :=
  ⟨rfl, rfl, rfl⟩

/-- C9 (amended): `is_rule_valid` is false in the initial state, and in
every reachable state that still has a current frame (`depth ≥ 0`) it
returns exactly the `is_assoc` flag the current (top) frame was opened
with; only in the root-consumed state (`depth = -1`) can it return a stale
flag (see the counterexample). -/
theorem c9_amended :
    is_rule_valid freshCtx = .ok false ∧
    (∀ (acts : List SAction) (f : Frame) (s' : List Frame) (c : SCtx),
      aRun acts [⟨1, 0, false⟩] = .ok (f :: s') →
      runActions acts freshCtx = .ok c →
      is_rule_valid c = .ok f.isAssoc) := by
  refine ⟨rfl, ?_⟩
  intro acts f s' c habs hconc
  obtain ⟨c₀, hc₀, hrel⟩ := sim_run acts [⟨1, 0, false⟩] (f :: s') freshCtx
    Rel_fresh habs
  rw [hconc] at hc₀
  injection hc₀ with h
  subst h
  exact Rel_rule_valid hrel

theorem c9_amended_witness : is_rule_valid ⟨0, [1], [0], [true]⟩ = .ok true :=
  c9_amended.2 [.stepIn 1 true] ⟨1, 0, true⟩ [] ⟨0, [1], [0], [true]⟩ rfl rfl

/-- C4: `serialize` always writes the uncompressed header — the version
byte `'8'` (56), the compression byte `'C'` (67) exactly when compression
was requested at construction, then the separator `':'` (58) — before any
token bytes; and once the token sequence has been exhausted it raises the
"truncated expr" `WXFSerializerException` if and only if the active
context is not in its valid final state. -/
theorem c4_header_and_truncation :
    ∀ (compress enforce : Bool) (zipWriter : List Nat → List Nat) (toks : List Token),
    (∃ rest, (serialize compress enforce zipWriter toks).1
        = [56] ++ (if compress then [67] else []) ++ [58] ++ rest) ∧
    (∀ (body : List Nat) (ctx : AnyCtx),
      runTokens toks (initContext enforce) = .ok (body, ctx) →
      ((serialize compress enforce zipWriter toks).2 = some .serialization
        ↔ ctx.is_valid_final_state = false)) := by
  intro compress enforce zipWriter toks
  constructor
  · cases hrun : runTokens toks (initContext enforce) with
    | error e =>
      refine ⟨[], ?_⟩
      rw [serialize]
      simp only [hrun]
      simp [WXF_VERSION, WXF_HEADER_COMPRESS, WXF_HEADER_SEPARATOR]
    | ok r =>
      obtain ⟨body, ctx⟩ := r
      by_cases hfin : ctx.is_valid_final_state = true
      · refine ⟨if compress then zipWriter body else body, ?_⟩
        rw [serialize]
        simp only [hrun, if_pos hfin]
        simp [WXF_VERSION, WXF_HEADER_COMPRESS, WXF_HEADER_SEPARATOR]
      · refine ⟨if compress then zipWriter body else body, ?_⟩
        rw [serialize]
        simp only [hrun, if_neg hfin]
        simp [WXF_VERSION, WXF_HEADER_COMPRESS, WXF_HEADER_SEPARATOR]
  · intro body ctx hrun
    rw [serialize]
    simp only [hrun]
    by_cases hfin : ctx.is_valid_final_state = true
    · rw [if_pos hfin]
      simp [hfin]
    · rw [if_neg hfin]
      simp [hfin]

theorem c4_witness :
    (∃ rest, (serialize false true id [tokA]).1
        = [56] ++ (if false then [67] else []) ++ [58] ++ rest) ∧
    ((serialize false true id [tokA]).2 = some .serialization
      ↔ (AnyCtx.enforcing ⟨-1, [1], [1], [false]⟩).is_valid_final_state = false) :=
  ⟨(c4_header_and_truncation false true id [tokA]).1,
    (c4_header_and_truncation false true id [tokA]).2 [65]
      (.enforcing ⟨-1, [1], [1], [false]⟩) rfl⟩

theorem refVarint_two : refVarint 2 = [2] := refVarint_small (by norm_num)

theorem refVarint_300 : refVarint 300 = [172, 2] := by
  rw [refVarint_large (by norm_num)]
  norm_num [refVarint_two]

theorem varint_bytes_300 : varint_bytes 300 = .ok [172, 2] := by
  rw [varint_bytes_eq, if_neg (by norm_num)]
  have ht : (300 : Int).toNat = 300 := rfl
  rw [ht, refVarint_300, if_pos (by norm_num)]

/-- C3 (counterexample): the first ten-group value — a non-negative input —
does not produce the reference 7-bit groups: writing its tenth byte
overflows the fixed `bytearray(9)` and raises an `IndexError`, so the
universal "for every non-negative integer input it emits the value's 7-bit
groups" fails at `2^63`. -/
theorem c3_counterexample :
    varint_bytes ((2 ^ 63 : Nat) : Int) = .error .indexError := by
  rw [varint_bytes_eq, if_neg (not_lt.mpr (Int.natCast_nonneg _))]
  have ht : ((2 ^ 63 : Nat) : Int).toNat = 2 ^ 63 := Int.toNat_natCast _
  rw [ht]
  have hgt := refVarint_length_gt 9 (2 ^ 63) (by norm_num)
  rw [if_neg (by omega)]

/-- C3 (amended): the varint encoder equals the reference 7-bit
little-endian group definition for every non-negative input whose encoding
fits the 9-byte buffer, i.e. every value below `2^63`; every negative input
fails with the `TypeError` (the spec's `EncodingError`) before any byte is
written; in particular `encode(0) = 00`, `encode(127) = 7F`,
`encode(128) = 80 01`, `encode(300) = AC 02`.  (Values ≥ `2^63` instead
overflow the fixed buffer — the defect recorded under C6.) -/
theorem c3_varint_matches_reference :
    (∀ v : Int, 0 ≤ v → v < 2 ^ 63 → varint_bytes v = .ok (refVarint v.toNat)) ∧
    (∀ v : Int, v < 0 → varint_bytes v = .error .typeError) ∧
    varint_bytes 0 = .ok [0x00] ∧ varint_bytes 127 = .ok [0x7F] ∧
    varint_bytes 128 = .ok [0x80, 0x01] ∧ varint_bytes 300 = .ok [0xAC, 0x02] := by
  refine ⟨?_, ?_, ?_, ?_, ?_, varint_bytes_300⟩
  · intro v h0 hlt
    rw [varint_bytes_eq, if_neg (by omega)]
    have h9 : v.toNat < 128 ^ (8 + 1) := by
      have h128 : (128 : Nat) ^ (8 + 1) = 2 ^ 63 := by norm_num
      rw [h128]
      omega
    have hfit := refVarint_length_le 8 v.toNat h9
    rw [if_pos (by omega)]
  · intro v hneg
    rw [varint_bytes_eq, if_pos hneg]
  · rw [varint_bytes_eq, if_neg (by norm_num)]
    have h0 : refVarint (0 : Int).toNat = [0] := refVarint_small (by norm_num)
    rw [h0, if_pos (by norm_num)]
  · rw [varint_bytes_eq, if_neg (by norm_num)]
    have h127 : refVarint (127 : Int).toNat = [127] := refVarint_small (by norm_num)
    rw [h127, if_pos (by norm_num)]
  · rw [varint_bytes_eq, if_neg (by norm_num)]
    have h128 : refVarint (128 : Int).toNat = [128, 1] := by
      show refVarint 128 = [128, 1]
      rw [refVarint_large (by norm_num)]
      norm_num [refVarint_small]
    rw [h128, if_pos (by norm_num)]

theorem c3_witness : varint_bytes 127 = .ok (refVarint (127 : Int).toNat) :=
  c3_varint_matches_reference.1 127 (by norm_num) (by norm_num)

/-- C6: the fixed `bytearray(9)` is undersized for the 64-bit range of
WXF length fields.  Ten-group values — from `2^63` up to the 64-bit
maximum `2^64 - 1` — make the loop write `buf[9]`, raising an `IndexError`
instead of encoding, while the largest nine-group value `2^63 - 1` still
encodes; the spec requires the full 64-bit range to succeed, so the claim
is right and the buffer size is the bug. -/
theorem c6_varint_buffer_undersized :
    varint_bytes ((2 ^ 64 - 1 : Nat) : Int) = .error .indexError ∧
    varint_bytes ((2 ^ 63 : Nat) : Int) = .error .indexError ∧
    varint_bytes ((2 ^ 63 - 1 : Nat) : Int) = .ok (refVarint (2 ^ 63 - 1)) := by
  refine ⟨?_, ?_, ?_⟩
  · rw [varint_bytes_eq, if_neg (not_lt.mpr (Int.natCast_nonneg _)),
      Int.toNat_natCast]
    have hgt := refVarint_length_gt 9 (2 ^ 64 - 1) (by norm_num)
    rw [if_neg (by omega)]
  · rw [varint_bytes_eq, if_neg (not_lt.mpr (Int.natCast_nonneg _)),
      Int.toNat_natCast]
    have hgt := refVarint_length_gt 9 (2 ^ 63) (by norm_num)
    rw [if_neg (by omega)]
  · rw [varint_bytes_eq, if_neg (not_lt.mpr (Int.natCast_nonneg _)),
      Int.toNat_natCast]
    have hfit := refVarint_length_le 8 (2 ^ 63 - 1) (by norm_num)
    rw [if_pos (by omega)]

/-- C10: whenever the encoder succeeds, interpreting the emitted bytes as
little-endian base-128 digits (low 7 bits of each byte, stopping at the
first byte with its high bit clear) reconstructs exactly the input, even
inside a longer stream — the encoding is self-delimiting — and two inputs
encoding to the same bytes are equal (injectivity). -/
theorem c10_varint_roundtrip :
    ∀ (v : Int) (bs : List Nat), varint_bytes v = .ok bs →
      0 ≤ v ∧ (∀ rest, decodeVarint (bs ++ rest) = some (v.toNat, rest)) ∧
      (∀ (w : Int) (cs : List Nat), varint_bytes w = .ok cs → cs = bs → w = v) := by
  have hsucc : ∀ (v : Int) (bs : List Nat), varint_bytes v = .ok bs →
      0 ≤ v ∧ bs = refVarint v.toNat := by
    intro v bs h
    rw [varint_bytes_eq] at h
    by_cases hneg : v < 0
    · rw [if_pos hneg] at h
      exact absurd h (by simp)
    · rw [if_neg hneg] at h
      by_cases hfit : (refVarint v.toNat).length ≤ 9
      · rw [if_pos hfit] at h
        injection h with h
        exact ⟨by omega, h.symm⟩
      · rw [if_neg hfit] at h
        exact absurd h (by simp)
  intro v bs h
  obtain ⟨h0, hbs⟩ := hsucc v bs h
  subst hbs
  refine ⟨h0, fun rest => decode_refVarint v.toNat rest, ?_⟩
  intro w cs hw hcw
  obtain ⟨hw0, hcs⟩ := hsucc w cs hw
  have heq : refVarint w.toNat = refVarint v.toNat := hcs.symm.trans hcw
  have h1 := decode_refVarint w.toNat ([] : List Nat)
  have h2 := decode_refVarint v.toNat ([] : List Nat)
  rw [heq, h2] at h1
  injection h1 with h1
  have : w.toNat = v.toNat := (Prod.mk.injEq _ _ _ _).mp h1.symm |>.1
  omega

theorem c10_witness :
    decodeVarint ([172, 2] ++ [7]) = some ((300 : Int).toNat, [7]) :=
  (c10_varint_roundtrip 300 [172, 2] varint_bytes_300).2.1 [7]

/-- C5: construction with a non-positive pool size fails before the queue
or any session is created — but with a `NameError`, not the documented
`ValueError`: the message interpolation `'Invalid pool size value %i.' % i`
references the undefined name `i` (the parameter is `poolsize`), so the
intended `ConfigurationError` carrying the invalid size is never built. -/
theorem c5_pool_size_check_raises_nameerror :
    (∀ (kp : String) (ps lf : Int), ps ≤ 0 →
      kernelpool_init kp ps lf = .error .nameError) ∧
    kernelpool_init "wolframkernel" 0 4 = .error .nameError := by
  constructor
  · intro kp ps lf hps
    rw [kernelpool_init, if_pos hps]
  · rfl

theorem c5_witness : kernelpool_init "wk" (-2) 7 = .error .nameError :=
  c5_pool_size_check_raises_nameerror.1 "wk" (-2) 7 (by norm_num)

/-- C7 (counterexample): dequeuing the `None` stop sentinel does NOT mark
it consumed: the loop breaks, and the `finally` guard `if task:` is false
for `None`, so `task_done()` is never called for it — the bookkeeping
count stays 0. -/
theorem c7_counterexample :
    kernel_loop [.sentinel] ⟨[], 0⟩ = (⟨[], 0⟩, .stopped) := rfl

/-- C7 (amended): the loop calls `task_done()` exactly once per dequeued
*ordinary* task — on success, on a recoverable failure, and on the fatal
paths alike — but never for the dequeued `None` sentinel (the `finally`
guard `if task:` excludes it). -/
theorem c7_task_done_amended :
    (∀ (entries : List QEntry) (st : LoopState),
      (kernel_loop entries st).1.taskDoneCount
        = st.taskDoneCount + dequeuedOrdinary entries) ∧
    (∀ (rest : List QEntry) (st : LoopState),
      (kernel_loop (.sentinel :: rest) st).1.taskDoneCount
        = st.taskDoneCount) := by
  have main : ∀ (entries : List QEntry) (st : LoopState),
      (kernel_loop entries st).1.taskDoneCount
        = st.taskDoneCount + dequeuedOrdinary entries := by
    intro entries
    induction entries with
    | nil => intro st; simp [kernel_loop, dequeuedOrdinary]
    | cons entry rest ih =>
      intro st
      cases entry with
      | sentinel => simp [kernel_loop, dequeuedOrdinary]
      | task t =>
        rw [kernel_loop, dequeuedOrdinary]
        cases ht : t.outcome with
        | ok v =>
          simp only [ht]
          rw [ih]
          show st.taskDoneCount + 1 + dequeuedOrdinary rest
            = st.taskDoneCount + (1 + dequeuedOrdinary rest)
          omega
        | error e =>
          simp only [ht]
          by_cases he : e.isException = true
          · rw [if_pos he, if_pos he, ih]
            show st.taskDoneCount + 1 + dequeuedOrdinary rest
              = st.taskDoneCount + (1 + dequeuedOrdinary rest)
            omega
          · rw [if_neg he, if_neg he]
  refine ⟨main, fun rest st => ?_⟩
  rw [main, dequeuedOrdinary]
  omega

/-- C8: a task whose underlying session operation raises an ordinary
(recoverable) exception `E` has its future resolved with exactly `E` (the
inner `except Exception` stores it), the loop goes on to serve the rest of
the queue, and the caller awaiting that future in `evaluate` receives
exactly `E` back. -/
theorem c8_recoverable_error_resolves_future :
    ∀ (t : KTask) (rest : List QEntry) (st : LoopState) (e : PyExn),
    t.outcome = .error e → e.isException = true →
    t.futureId ∉ st.futures.map Prod.fst →
    kernel_loop (.task t :: rest) st
      = kernel_loop rest { futures := st.futures ++ [(t.futureId, .error e)],
                           taskDoneCount := st.taskDoneCount + 1 } ∧
    await_future (st.futures ++ [(t.futureId, .error e)]) t.futureId
      = some (.error e) := by
  intro t rest st e ht he hfresh
  refine ⟨?_, await_future_append_fresh st.futures t.futureId (.error e) hfresh⟩
  rw [kernel_loop]
  simp only [ht]
  rw [if_pos he]

theorem c8_witness :
    kernel_loop [.task ⟨7, .error (.exn 3)⟩] ⟨[], 0⟩
      = kernel_loop [] ⟨[(7, .error (.exn 3))], 1⟩ ∧
    await_future [(7, .error (.exn 3))] 7 = some (.error (.exn 3)) :=
  c8_recoverable_error_resolves_future ⟨7, .error (.exn 3)⟩ [] ⟨[], 0⟩
    (.exn 3) rfl rfl (by simp)

end WXF
